import Mathlib

/-!
# Verification of the config-differ core

Shallow embedding of the core of the `config-differ` repository
(character-level LCS differ, properties parser, YAML parser, canonical
sorts and the diff engine), together with proofs of the specified
properties.  JavaScript strings are modelled by `String` / `List Char`
(code-point indexing), JS `Map` by an insertion-ordered association
list, and JS objects holding YAML nodes by the inductive `YVal`.
-/

namespace ConfigDiffer

/-- Role of a character segment in the character-level diff: the JS
`type` field, `'unchanged'`, `'added'` or `'removed'`. -/
inductive SegType where
  | unchanged
  | added
  | removed
deriving DecidableEq, Repr

/-- One character-level diff segment, mirroring the objects
`{ text: str[i], type: ... }` pushed by `highlightDifferences`
(each `text` is a single character). -/
structure Seg where
  text : Char
  type : SegType
deriving DecidableEq, Repr

/-- Interior cells of one row of the LCS table.  Given `c = str1[i-1]`,
the characters of `str2` from position `j-1` on, the previous row of the
table starting at index `j-1`, and the already computed cell `cur[j-1]`
(argument `left`), produces the cells `cur[j], cur[j+1], ...` following
the recurrence of `computeLCS`: `dp[i][j] = dp[i-1][j-1] + 1` when the
characters match, `max(dp[i-1][j], dp[i][j-1])` otherwise. -/
def lcsRowAux (c : Char) : List Char → List Nat → Nat → List Nat
  | b :: bs, p0 :: p1 :: ps, left =>
    let cur := if c = b then p0 + 1 else max p1 left
    cur :: lcsRowAux c bs (p1 :: ps) cur
  | _, _, _ => []

/-- Rows `1..m` of the LCS table, each computed from the previous row as
in the nested `for` loops of `computeLCS`; every row starts with the
untouched `dp[i][0] = 0` cell. -/
def lcsRows (s2 : List Char) : List Char → List Nat → List (List Nat)
  | [], _ => []
  | c :: cs, prevRow =>
    let row := 0 :: lcsRowAux c s2 prevRow 0
    row :: lcsRows s2 cs row

/-- The function `computeLCS(str1, str2)`: the full `(m+1) × (n+1)` dynamic-programming
LCS length table (row 0 and column 0 all zero).  The JS null-guards
`str1 = str1 || ''` are vacuous for the `String` embedding. -/
def computeLCS (str1 str2 : String) : List (List Nat) :=
  let row0 := List.replicate (str2.length + 1) 0
  row0 :: lcsRows str2.data str1.data row0

/-- Table lookup `dp[i][j]`, out-of-range reads modelled as 0. -/
def lcsGet (dp : List (List Nat)) (i j : Nat) : Nat :=
  (dp.getD i []).getD j 0

/-- The backtracking loop of `highlightDifferences`, walking from `(i, j)`
toward `(0, 0)` over a fixed table `dp`.  `fuel` bounds the number of loop
iterations (every iteration decreases `i + j`, so `fuel = i + j` always
suffices).  The JS loop prepends each emitted segment with `unshift`, so
the segment for the current (largest) position is appended after the
recursive result here.  The final catch-all arm is unreachable: whenever
`i ≠ 0` or `j ≠ 0` one of the three loop branches applies. -/
def backtrack (str1 str2 : List Char) (dp : List (List Nat)) :
    Nat → Nat → Nat → List Seg × List Seg
  | 0, _, _ => ([], [])
  | fuel + 1, i, j =>
    if i = 0 ∧ j = 0 then ([], [])
    else if 0 < i ∧ 0 < j ∧ str1.get? (i - 1) = str2.get? (j - 1) then
      let p := backtrack str1 str2 dp fuel (i - 1) (j - 1)
      (p.1 ++ [⟨(str1.get? (i - 1)).getD ' ', .unchanged⟩],
       p.2 ++ [⟨(str2.get? (j - 1)).getD ' ', .unchanged⟩])
    else if 0 < j ∧ (i = 0 ∨ lcsGet dp (i - 1) j ≤ lcsGet dp i (j - 1)) then
      let p := backtrack str1 str2 dp fuel i (j - 1)
      (p.1, p.2 ++ [⟨(str2.get? (j - 1)).getD ' ', .added⟩])
    else if 0 < i then
      let p := backtrack str1 str2 dp fuel (i - 1) j
      (p.1 ++ [⟨(str1.get? (i - 1)).getD ' ', .removed⟩], p.2)
    else ([], [])

/-- The function `highlightDifferences(str1, str2)`: computes the LCS table and
backtracks from `(|str1|, |str2|)`, producing the left and right
character segment sequences. -/
def highlightDifferences (str1 str2 : String) : List Seg × List Seg :=
  let dp := computeLCS str1 str2
  backtrack str1.data str2.data dp (str1.length + str2.length)
    str1.length str2.length

/-- Number of `unchanged` segments in a segment sequence. -/
def countUnchanged (segs : List Seg) : Nat :=
  (segs.filter (fun s => s.type = SegType.unchanged)).length

/-- JS string primitives, modelled on the character-list view of
strings so that every operation is structurally recursive (and hence
evaluable by the kernel).  `Char.isWhitespace` models the JS `\s`
character class and the whitespace notion of `trim`. -/
def jsTrimLeft (s : String) : String :=
  (s.data.dropWhile (fun c => c.isWhitespace)).asString

/-- JS `String.prototype.trimEnd` / the right half of `trim`. -/
def jsTrimRight (s : String) : String :=
  ((s.data.reverse.dropWhile (fun c => c.isWhitespace)).reverse).asString

/-- JS `String.prototype.trim`. -/
def jsTrim (s : String) : String :=
  jsTrimRight (jsTrimLeft s)

/-- JS `s.slice(0, -n)` for `0 < n ≤ s.length`: drop the last `n`
characters. -/
def jsDropRight (s : String) (n : Nat) : String :=
  (s.data.take (s.data.length - n)).asString

/-- JS `String.prototype.startsWith`. -/
def jsStartsWith (s pre : String) : Bool :=
  s.data.take pre.data.length == pre.data

/-- JS `String.prototype.endsWith`. -/
def jsEndsWith (s post : String) : Bool :=
  s.data.reverse.take post.data.length == post.data.reverse

/-- JS `String.prototype.split('\n')` on the character list: every
newline separates, so the result is one (possibly empty) chunk more than
the number of newlines. -/
def splitLinesAux : List Char → List (List Char)
  | [] => [[]]
  | c :: rest =>
    match splitLinesAux rest with
    | [] => [[]]
    | l :: ls => if c = '\n' then [] :: l :: ls else (c :: l) :: ls

/-- JS `text.split('\n')`. -/
def jsSplitNewlines (s : String) : List String :=
  (splitLinesAux s.data).map List.asString

/-- A parsed properties-file entry: the JS objects
`{type:'blank', line:''}`, `{type:'comment', line}` and
`{type:'property', key, value, line}` pushed by `PropertyParser.parse`
(a blank entry always stores the empty line, so it carries no field). -/
inductive Entry where
  | blank : Entry
  | comment (line : String) : Entry
  | property (key value line : String) : Entry
deriving DecidableEq, Repr

/-- The result object of `parsePropertyLine`:
`{key, value, fullLine, nextIndex}`. -/
structure PropLineResult where
  key : String
  value : String
  fullLine : String
  nextIndex : Nat
deriving DecidableEq, Repr

/-- The line-continuation loop of `parsePropertyLine`: while the
right-trimmed accumulated line ends with a backslash and a further
physical line exists, drop the backslash (and the trailing whitespace
before it) and append the next raw line.  `fuel` bounds the iterations;
`allLines.length` always suffices because `currentIndex` strictly
increases and the loop requires `currentIndex + 1 < allLines.length`. -/
def resolveContinuation (allLines : List String) :
    Nat → String → Nat → String × Nat
  | 0, fullLine, currentIndex => (fullLine, currentIndex)
  | fuel + 1, fullLine, currentIndex =>
    if jsEndsWith (jsTrimRight fullLine) "\\" ∧ currentIndex + 1 < allLines.length then
      resolveContinuation allLines fuel
        (jsDropRight (jsTrimRight fullLine) 1 ++ allLines.getD (currentIndex + 1) "")
        (currentIndex + 1)
    else (fullLine, currentIndex)

/-- The regex `/^([^=:\s]+)\s*[:=]\s*(.*)$/` of `parsePropertyLine`:
the key is the maximal nonempty prefix of characters that are not `=`,
`:` or whitespace, followed by optional whitespace, a single `=` or `:`,
and the remainder as value; both sides are then trimmed as in the JS
(`match[1].trim()`, `match[2].trim()`; the greedy `\s*` before the value
is subsumed by the trim).  JS `\s` is modelled by `Char.isWhitespace`. -/
def sepMatch (fullLine : String) : Option (String × String) :=
  let cs := fullLine.data
  let key := cs.takeWhile (fun c => !(c == '=') && !(c == ':') && !c.isWhitespace)
  if key.isEmpty then none
  else
    match (cs.drop key.length).dropWhile (fun c => c.isWhitespace) with
    | c :: rest2 =>
      if c == '=' || c == ':' then
        some (jsTrim key.asString, jsTrim rest2.asString)
      else none
    | [] => none

/-- The fallback regex `/^(\S+)\s+(.+)$/` of `parsePropertyLine`: a
maximal nonempty non-whitespace prefix as key, at least one whitespace
character, and at least one further character; the value is the trimmed
remainder (when the remainder is all whitespace the regex backtracking
leaves a single whitespace character as value, which trims to the same
empty string). -/
def spaceMatch (fullLine : String) : Option (String × String) :=
  let cs := fullLine.data
  let key := cs.takeWhile (fun c => !c.isWhitespace)
  let rest := cs.drop key.length
  if key.isEmpty || rest.length < 2 then none
  else
    some (jsTrim key.asString,
      jsTrim ((rest.dropWhile (fun c => c.isWhitespace)).asString))

/-- The function `parsePropertyLine(line, allLines, startIndex)`: resolves line
continuations, then tries the separator pattern and the space-separated
fallback pattern; `none` models the JS `null`. -/
def parsePropertyLine (line : String) (allLines : List String)
    (startIndex : Nat) : Option PropLineResult :=
  let fc := resolveContinuation allLines allLines.length line startIndex
  match sepMatch fc.1 with
  | some (k, v) => some ⟨k, v, fc.1, fc.2 + 1⟩
  | none =>
    match spaceMatch fc.1 with
    | some (k, v) => some ⟨k, v, fc.1, fc.2 + 1⟩
    | none => none

/-- The `while (i < lines.length)` loop of `PropertyParser.parse`:
blank lines yield `blank` entries, lines whose trimmed form starts with
`#` or `!` yield `comment` entries, and otherwise the property-line
parser is tried, falling back to a `comment` entry holding the raw line
when it fails.  `fuel` bounds the iterations; `lines.length` always
suffices because the index strictly increases each iteration. -/
def parseLoop (lines : List String) : Nat → Nat → List Entry
  | 0, _ => []
  | fuel + 1, i =>
    if i < lines.length then
      let line := lines.getD i ""
      let trimmed := jsTrim line
      if trimmed = "" then Entry.blank :: parseLoop lines fuel (i + 1)
      else if jsStartsWith trimmed "#" || jsStartsWith trimmed "!" then
        Entry.comment line :: parseLoop lines fuel (i + 1)
      else
        match parsePropertyLine line lines i with
        | some res =>
          Entry.property res.key res.value res.fullLine
            :: parseLoop lines fuel res.nextIndex
        | none => Entry.comment line :: parseLoop lines fuel (i + 1)
    else []

/-- The method `PropertyParser.parse(text)`: split on newlines and run the parsing
loop from index 0.  (The JS `text == null` guard returning `[]` has no
counterpart for the `String` embedding.) -/
def PropertyParser.parse (text : String) : List Entry :=
  let lines := jsSplitNewlines text
  parseLoop lines lines.length 0

/-- One element of the intermediate `properties` array built by
`PropertyParser.sort`: `{key, value, comments, entry}` where `comments`
is the pending comment/blank block preceding the property. -/
structure PropGroup where
  key : String
  value : String
  comments : List Entry
  entry : Entry
deriving DecidableEq, Repr

/-- The grouping loop of `PropertyParser.sort`: comments and blanks are
accumulated in `pending`; each property captures the pending block; the
function returns the `properties` array and the trailing pending list. -/
def groupEntries : List Entry → List Entry → List PropGroup × List Entry
  | [], pending => ([], pending)
  | e :: rest, pending =>
    match e with
    | Entry.comment _ => groupEntries rest (pending ++ [e])
    | Entry.blank => groupEntries rest (pending ++ [e])
    | Entry.property k v _ =>
      let res := groupEntries rest []
      (⟨k, v, pending, e⟩ :: res.1, res.2)

/-- Lexicographic `<` on JS strings viewed as character lists (JS
compares strings code-unit-wise with `<`; code points and code units
agree outside surrogate pairs). -/
def charListLt : List Char → List Char → Bool
  | [], [] => false
  | [], _ :: _ => true
  | _ :: _, [] => false
  | a :: as, b :: bs =>
    if a < b then true else if b < a then false else charListLt as bs

/-- JS `a < b` on strings. -/
def jsLt (a b : String) : Bool :=
  charListLt a.data b.data

/-- The non-strict comparison `a ≤ b` induced by `jsLt`, i.e. the keys
`a, b` appear in this order under a comparator reporting `b < a` false. -/
def strLe (a b : String) : Prop :=
  jsLt b a = false

/-- The comparison `a.localeCompare(b)`, modelled as code-point lexicographic
comparison returning a negative, zero or positive number.  (The
locale-sensitive collation of the browser API is not formalised; any
consistent total order supports the stated properties.) -/
def localeCompare (a b : String) : Int :=
  if jsLt a b then -1 else if a = b then 0 else 1

/-- The method `PropertyParser.sort(entries)`: group properties with their pending
comment/blank blocks, stable-sort the groups by
`(a, b) => a.key.localeCompare(b.key)` (the JS stable `Array.sort` is
modelled by stable insertion sort on the non-strict comparator
`localeCompare ≤ 0`), then emit each group's comments followed by its
property, and finally the trailing pending list.  (The
`!Array.isArray(entries)` guard has no counterpart for the typed
embedding.) -/
def PropertyParser.sort (entries : List Entry) : List Entry :=
  let g := groupEntries entries []
  let sorted := g.1.insertionSort (fun a b => localeCompare a.key b.key ≤ 0)
  (sorted.flatMap (fun p => p.comments ++ [p.entry])) ++ g.2

/-- Entries that the grouping loop of `PropertyParser.sort` treats as
pending (everything except properties). -/
def isCommentOrBlank : Entry → Bool
  | Entry.property _ _ _ => false
  | _ => true

/-- One flattened YAML leaf: `{key, value, comments}` as produced by
`YAMLParser.flatten`. -/
structure FlatEntry where
  key : String
  value : String
  comments : List String
deriving DecidableEq, Repr

/-- JS `Map.prototype.set` on an insertion-ordered association list:
an existing binding is overwritten in place, a new key is appended. -/
def mapSet (m : List (String × String)) (k v : String) :
    List (String × String) :=
  if m.any (fun p => p.1 == k) then
    m.map (fun p => if p.1 == k then (k, v) else p)
  else m ++ [(k, v)]

/-- JS `Map.prototype.has`. -/
def mapHas (m : List (String × String)) (k : String) : Bool :=
  m.any (fun p => p.1 == k)

/-- JS `Map.prototype.get` (`none` models `undefined`). -/
def mapGet (m : List (String × String)) (k : String) : Option String :=
  (m.find? (fun p => p.1 == k)).map Prod.snd

/-- JS `map.keys()` in insertion order. -/
def mapKeys (m : List (String × String)) : List String :=
  m.map Prod.fst

/-- The method `DiffEngine.propertiesToMap(entries)`: keep only property entries,
last value wins for a repeated key.  (The `entry.key || ''` and
`entry.value || ''` guards are identities on strings since only the
empty string is falsy, and the `Array.isArray` / `entry` null guards
have no typed counterpart.) -/
def DiffEngine.propertiesToMap (entries : List Entry) :
    List (String × String) :=
  entries.foldl
    (fun m e =>
      match e with
      | Entry.property k v _ => mapSet m k v
      | _ => m)
    []

/-- The method `DiffEngine.yamlToMap(entries)`: every flat entry is inserted, last
value wins for a repeated key. -/
def DiffEngine.yamlToMap (entries : List FlatEntry) :
    List (String × String) :=
  entries.foldl (fun m e => mapSet m e.key e.value) []

/-- The four `status` strings of a diff row. -/
inductive RowStatus where
  | added
  | removed
  | modified
  | unchanged
deriving DecidableEq, Repr

/-- One diff row pushed by `DiffEngine.compare`; the JS objects carry
`key` and `fileType` fields only on modified rows, modelled by
`Option`, and `leftHighlight`/`rightHighlight` are `null` except on
modified rows. -/
structure DiffRow where
  status : RowStatus
  leftLine : String
  rightLine : String
  leftHighlight : Option (List Seg)
  rightHighlight : Option (List Seg)
  key : Option String
  fileType : Option String
deriving DecidableEq, Repr

/-- The method `DiffEngine.formatLine(key, value, fileType)`: `key=value` for
properties, `key: value` otherwise.  (The null guards on key and value
are identities for the `String` embedding; callers pass `getD ""` where
JS would pass `undefined`.) -/
def DiffEngine.formatLine (key value fileType : String) : String :=
  if fileType == "properties" then key ++ "=" ++ value
  else key ++ ": " ++ value

/-- The JS `Set` built from the concatenated key iterations: first
occurrence wins, insertion order kept. -/
def uniqueKeys (l : List String) : List String :=
  l.foldl (fun acc k => if k ∈ acc then acc else acc ++ [k]) []

instance : DecidableRel strLe :=
  fun a b => inferInstanceAs (Decidable (jsLt b a = false))

/-- The expression `Array.from(allKeys).sort()` of `DiffEngine.compare`: the deduped
union of both key iterations, sorted by the default lexicographic
comparator (modelled by the stable insertion sort on `strLe`; the
elements are distinct, so any sort agrees). -/
def DiffEngine.sortedKeysOf (leftEntries rightEntries : List (String × String)) :
    List String :=
  (uniqueKeys (mapKeys leftEntries ++ mapKeys rightEntries)).insertionSort strLe

/-- The body of the `for (const key of sortedKeys)` loop of
`DiffEngine.compare`: builds the diff row for one key. -/
def DiffEngine.diffRowFor (leftEntries rightEntries : List (String × String))
    (fileType key : String) : DiffRow :=
  let hasLeft := mapHas leftEntries key
  let hasRight := mapHas rightEntries key
  let leftValue : Option String :=
    if hasLeft then mapGet leftEntries key else none
  let rightValue : Option String :=
    if hasRight then mapGet rightEntries key else none
  if !hasLeft && hasRight then
    { status := RowStatus.added, leftLine := "",
      rightLine := DiffEngine.formatLine key (rightValue.getD "") fileType,
      leftHighlight := none, rightHighlight := none,
      key := none, fileType := none }
  else if hasLeft && !hasRight then
    { status := RowStatus.removed,
      leftLine := DiffEngine.formatLine key (leftValue.getD "") fileType,
      rightLine := "",
      leftHighlight := none, rightHighlight := none,
      key := none, fileType := none }
  else if leftValue ≠ rightValue then
    { status := RowStatus.modified,
      leftLine := DiffEngine.formatLine key (leftValue.getD "") fileType,
      rightLine := DiffEngine.formatLine key (rightValue.getD "") fileType,
      leftHighlight :=
        some (highlightDifferences (leftValue.getD "") (rightValue.getD "")).1,
      rightHighlight :=
        some (highlightDifferences (leftValue.getD "") (rightValue.getD "")).2,
      key := some key, fileType := some fileType }
  else
    { status := RowStatus.unchanged,
      leftLine := DiffEngine.formatLine key (leftValue.getD "") fileType,
      rightLine := DiffEngine.formatLine key (rightValue.getD "") fileType,
      leftHighlight := none, rightHighlight := none,
      key := none, fileType := none }

/-- The key loop of `DiffEngine.compare` after both sides are reduced to
key→value maps: one row pushed per sorted key. -/
def DiffEngine.compareCore (leftEntries rightEntries : List (String × String))
    (fileType : String) : List DiffRow :=
  (DiffEngine.sortedKeysOf leftEntries rightEntries).map
    (DiffEngine.diffRowFor leftEntries rightEntries fileType)

/-- The call `DiffEngine.compare(leftData, rightData, 'properties')`: the
`fileType === 'properties'` branch reduces both entry arrays with
`propertiesToMap` and runs the key loop. -/
def DiffEngine.compareProperties (leftData rightData : List Entry) :
    List DiffRow :=
  DiffEngine.compareCore (DiffEngine.propertiesToMap leftData)
    (DiffEngine.propertiesToMap rightData) "properties"

/-- Role swap of one character segment (`added` ↔ `removed`), used to
state the claimed segment symmetry of swapped inputs. -/
def roleSwap (s : Seg) : Seg :=
  ⟨s.text,
    match s.type with
    | SegType.added => SegType.removed
    | SegType.removed => SegType.added
    | SegType.unchanged => SegType.unchanged⟩

/-- Concatenated character content of a segment sequence. -/
def segText (segs : List Seg) : String :=
  (segs.map Seg.text).asString

/-- A parsed YAML value: the plain JS value stored in `_value` — either
a scalar string or a nested mapping object.  A mapping is the
insertion-ordered list of its `key → {_value, _comments}` bindings
(JS object property order for the non-integer-like keys produced by the
parser). -/
inductive YVal : Type where
  | scalar (s : String) : YVal
  | obj (entries : List (String × YVal × List String)) : YVal
deriving Repr

/-- JS `obj[key] = item` on a mapping: overwrite in place when the key
exists, append otherwise. -/
def objSet (o : List (String × YVal × List String)) (k : String)
    (item : YVal × List String) : List (String × YVal × List String) :=
  if o.any (fun e => e.1 == k) then
    o.map (fun e => if e.1 == k then (k, item.1, item.2) else e)
  else o ++ [(k, item.1, item.2)]

/-- JS `line.search(/\S/)`: index of the first non-whitespace character,
`-1` when there is none. -/
def jsSearchNonWS (s : String) : Int :=
  match s.data.findIdx? (fun c => !c.isWhitespace) with
  | some i => (i : Int)
  | none => -1

/-- The regex `/^([^:#]+):\s*(.*)$/` of `YAMLParser.parseLevel`: the key
is the maximal nonempty prefix containing no `:` and no `#`, followed by
a `:` and the remainder as value; both parts are trimmed as in the JS
(the greedy `\s*` is subsumed by the trim). -/
def yamlKeyValueMatch (trimmed : String) : Option (String × String) :=
  let cs := trimmed.data
  let keyPart := cs.takeWhile (fun c => !(c == ':') && !(c == '#'))
  if keyPart.isEmpty then none
  else
    match cs.drop keyPart.length with
    | ':' :: rest => some (jsTrim keyPart.asString, jsTrim rest.asString)
    | _ => none

/-- The method `YAMLParser.parseLevel(baseIndent)`, with the shared mutable
`this.currentLine` cursor made explicit (argument `cur`, returned next
to the level's mapping) and the loop/recursion bounded by `fuel`
(`none` models fuel exhaustion and never occurs for
`fuel ≥ 2·(remaining lines) + 1`, see the termination theorem).  Each
loop iteration spends one unit of fuel; the recursive call for a nested
level and the continuation of the loop after it resume with the
remaining fuel.  Branches in source order: blank line; comment line
(pushed trimmed onto the pending buffer); `indent === -1` skip
(unreachable after the blank check); `indent < baseIndent` stop;
`indent > baseIndent && baseIndent !== 0` stop; key/value line with
nested-level lookahead; `-` list item under a synthetic
`_array_<line>` key; silent skip. -/
def parseLevelGo (lines : List String) :
    Nat → Int → Nat → List (String × YVal × List String) → List String →
      Option (List (String × YVal × List String) × Nat)
  | 0, _, _, _, _ => none
  | fuel + 1, baseIndent, cur, acc, pending =>
    if cur < lines.length then
      let line := lines.getD cur ""
      let trimmed := jsTrim line
      if trimmed = "" then
        parseLevelGo lines fuel baseIndent (cur + 1) acc pending
      else if jsStartsWith trimmed "#" then
        parseLevelGo lines fuel baseIndent (cur + 1) acc (pending ++ [trimmed])
      else
        let indent := jsSearchNonWS line
        if indent = -1 then
          parseLevelGo lines fuel baseIndent (cur + 1) acc pending
        else if indent < baseIndent then
          some (acc, cur)
        else if indent > baseIndent ∧ baseIndent ≠ 0 then
          some (acc, cur)
        else
          match yamlKeyValueMatch trimmed with
          | some (key, value) =>
            if cur + 1 < lines.length then
              let nextLine := lines.getD (cur + 1) ""
              let nextIndent := jsSearchNonWS nextLine
              if nextIndent > indent ∧ jsTrim nextLine ≠ "" then
                match parseLevelGo lines fuel nextIndent (cur + 1) [] [] with
                | none => none
                | some (child, cur') =>
                  parseLevelGo lines fuel baseIndent cur'
                    (objSet acc key (YVal.obj child, pending)) []
              else if value = "" then
                parseLevelGo lines fuel baseIndent (cur + 1)
                  (objSet acc key (YVal.scalar "", pending)) []
              else
                parseLevelGo lines fuel baseIndent (cur + 1)
                  (objSet acc key (YVal.scalar value, pending)) []
            else
              parseLevelGo lines fuel baseIndent (cur + 1)
                (objSet acc key (YVal.scalar value, pending)) []
          | none =>
            if jsStartsWith trimmed "-" then
              parseLevelGo lines fuel baseIndent (cur + 1)
                (objSet acc ("_array_" ++ toString cur)
                  (YVal.scalar (jsTrim (trimmed.data.drop 1).asString), pending))
                []
            else
              parseLevelGo lines fuel baseIndent (cur + 1) acc pending
    else some (acc, cur)

/-- The method `YAMLParser.parse(text)`: split on newlines, reset the cursor and
parse the root level at `baseIndent = 0`.  The fuel
`2 · lines.length + 1` always suffices (termination theorem), so the
`Option` is always `some`. -/
def YAMLParser.parse (text : String) :
    Option (List (String × YVal × List String)) :=
  let lines := jsSplitNewlines text
  (parseLevelGo lines (2 * lines.length + 1) 0 0 [] []).map Prod.fst

instance : DecidableRel
    (fun (a b : String × YVal × List String) => strLe a.1 b.1) :=
  fun a b => inferInstanceAs (Decidable (strLe a.1 b.1))

/-- The method `YAMLParser.sortRecursively(obj)`: a non-object (scalar) is returned
unchanged; a mapping is rebuilt with its keys sorted
(`Object.keys(obj).sort()`, modelled by the stable insertion sort on
`strLe` over the bindings), recursing into `_value` when it is itself a
mapping and passing the item through unchanged otherwise (the
`_comments || []` guard is an identity for the list embedding; the
`else` branch for items without `_value` has no typed counterpart). -/
def YAMLParser.sortRecursively (v : YVal) : YVal :=
  match v with
  | YVal.scalar s => YVal.scalar s
  | YVal.obj entries =>
    YVal.obj
      (((entries.insertionSort (fun a b => strLe a.1 b.1)).attach).map
        (fun e =>
          match h : e.1.2.1 with
          | YVal.obj inner =>
            (e.1.1, YAMLParser.sortRecursively (YVal.obj inner), e.1.2.2)
          | YVal.scalar _ => e.1))
termination_by sizeOf v
decreasing_by
  rename_i entries
  obtain ⟨⟨k, val, cs⟩, hmem⟩ := e
  dsimp only at h
  subst h
  have hm : ((k, YVal.obj inner, cs) : String × YVal × List String) ∈ entries :=
    (List.mem_insertionSort (fun a b => strLe a.1 b.1)).mp hmem
  have h1 := List.sizeOf_lt_of_mem hm
  simp only [YVal.obj.sizeOf_spec, Prod.mk.sizeOf_spec] at h1 ⊢
  omega

/-- The method `YAMLParser.flatten(obj, prefix)`: a non-object is a single entry at
the prefix key; a mapping flattens each binding at
`prefix ? prefix + '.' + key : key`, recursing when `_value` is a
non-empty mapping, and otherwise emitting one entry whose value is the
scalar (or the JS string form `"[object Object]"` of an empty mapping,
since `String({})` is what the `item._value != null` branch produces).
The `item == null` and no-`_value` branches have no typed counterpart. -/
def YAMLParser.flatten (v : YVal) (pre : String) : List FlatEntry :=
  match v with
  | YVal.scalar s => [⟨pre, s, []⟩]
  | YVal.obj entries =>
    (entries.attach.map
      (fun e =>
        let fullKey := if pre ≠ "" then pre ++ "." ++ e.1.1 else e.1.1
        match h : e.1.2.1 with
        | YVal.obj inner =>
          if inner.length > 0 then YAMLParser.flatten (YVal.obj inner) fullKey
          else [⟨fullKey, "[object Object]", e.1.2.2⟩]
        | YVal.scalar s => [⟨fullKey, s, e.1.2.2⟩])).flatten
termination_by sizeOf v
decreasing_by
  rename_i entries
  obtain ⟨⟨k, val, cs⟩, hmem⟩ := e
  dsimp only at h
  subst h
  have h1 := List.sizeOf_lt_of_mem hmem
  simp only [YVal.obj.sizeOf_spec, Prod.mk.sizeOf_spec] at h1 ⊢
  omega

/-- The call `DiffEngine.compare(leftData, rightData, fileType)` for a
non-properties `fileType`: the else branch flattens both YAML trees and
runs the key loop. -/
def DiffEngine.compareYaml (leftData rightData : YVal) (fileType : String) :
    List DiffRow :=
  DiffEngine.compareCore (DiffEngine.yamlToMap (YAMLParser.flatten leftData ""))
    (DiffEngine.yamlToMap (YAMLParser.flatten rightData "")) fileType

lemma countUnchanged_append (l r : List Seg) :
    countUnchanged (l ++ r) = countUnchanged l + countUnchanged r := by
  simp [countUnchanged]

lemma getD_replicate_zero : ∀ n j : Nat, (List.replicate n (0 : Nat)).getD j 0 = 0 := by
  intro n
  induction n with
  | zero => intro j; rfl
  | succ n ih =>
    intro j
    cases j with
    | zero => rfl
    | succ j => simp only [List.replicate_succ, List.getD_cons_succ]; exact ih j

lemma lcsRowAux_length (c : Char) (bs : List Char) :
    ∀ (p : List Nat) (left : Nat), bs.length + 1 ≤ p.length →
      (lcsRowAux c bs p left).length = bs.length := by
  induction bs with
  | nil => intro p left _; simp [lcsRowAux]
  | cons b bs ih =>
    intro p left h
    rcases p with _ | ⟨p0, _ | ⟨p1, ps⟩⟩
    · simp at h
    · simp only [List.length_cons, List.length_nil] at h; omega
    · simp only [lcsRowAux, List.length_cons]
      rw [ih (p1 :: ps) _ (by simp only [List.length_cons] at h ⊢; omega)]

lemma lcsRowAux_getD (c : Char) (bs : List Char) :
    ∀ (p : List Nat) (left j : Nat), bs.length + 1 ≤ p.length → j < bs.length →
      (lcsRowAux c bs p left).getD j 0 =
        if c = bs.getD j ' ' then p.getD j 0 + 1
        else max (p.getD (j + 1) 0)
          (match j with
           | 0 => left
           | j' + 1 => (lcsRowAux c bs p left).getD j' 0) := by
  induction bs with
  | nil => intro p left j _ hj; simp at hj
  | cons b bs ih =>
    intro p left j hp hj
    rcases p with _ | ⟨p0, _ | ⟨p1, ps⟩⟩
    · simp at hp
    · simp only [List.length_cons, List.length_nil] at hp; omega
    · cases j with
      | zero => simp [lcsRowAux]
      | succ j =>
        have hp' : bs.length + 1 ≤ (p1 :: ps).length := by simp only [List.length_cons] at hp ⊢; omega
        have hj' : j < bs.length := by simpa using hj
        have := ih (p1 :: ps)
          (if c = b then p0 + 1 else max p1 left) j hp' hj'
        simp only [lcsRowAux, List.getD_cons_succ]
        rw [this]
        cases j with
        | zero => simp [lcsRowAux]
        | succ j => simp [lcsRowAux]

lemma lcsRows_getD_head (s2 : List Char) :
    ∀ (cs : List Char) (prev : List Nat) (i : Nat),
      ((lcsRows s2 cs prev).getD i []).getD 0 0 = 0 := by
  intro cs
  induction cs with
  | nil => intro prev i; simp [lcsRows]
  | cons c cs ih =>
    intro prev i
    cases i with
    | zero => simp [lcsRows]
    | succ i =>
      simp only [lcsRows, List.getD_cons_succ]
      exact ih _ i

lemma lcsRows_row_length (s2 : List Char) :
    ∀ (cs : List Char) (prev : List Nat), prev.length = s2.length + 1 →
      ∀ i, i < cs.length →
      ((lcsRows s2 cs prev).getD i []).length = s2.length + 1 := by
  intro cs
  induction cs with
  | nil => intro prev _ i hi; simp at hi
  | cons c cs ih =>
    intro prev hprev i hi
    cases i with
    | zero =>
      simp only [lcsRows, List.getD_cons_zero, List.length_cons]
      rw [lcsRowAux_length c s2 prev 0 (le_of_eq hprev.symm)]
    | succ i =>
      simp only [lcsRows, List.getD_cons_succ]
      refine ih _ ?_ i (by simpa using hi)
      simp only [List.length_cons]
      rw [lcsRowAux_length c s2 prev 0 (le_of_eq hprev.symm)]

lemma lcsTable_step (s2 : List Char) :
    ∀ (cs : List Char) (prev : List Nat), prev.length = s2.length + 1 →
      ∀ i j, i < cs.length → j < s2.length →
      lcsGet (prev :: lcsRows s2 cs prev) (i + 1) (j + 1) =
        if cs.getD i ' ' = s2.getD j ' '
        then lcsGet (prev :: lcsRows s2 cs prev) i j + 1
        else max (lcsGet (prev :: lcsRows s2 cs prev) i (j + 1))
                 (lcsGet (prev :: lcsRows s2 cs prev) (i + 1) j) := by
  intro cs
  induction cs with
  | nil => intro prev _ i j hi _; simp at hi
  | cons c cs ih =>
    intro prev hprev i j hi hj
    cases i with
    | zero =>
      have h := lcsRowAux_getD c s2 prev 0 j (le_of_eq hprev.symm) hj
      simp only [lcsGet, lcsRows, List.getD_cons_succ, List.getD_cons_zero]
      rw [h]
      cases j with
      | zero => simp
      | succ j => simp
    | succ i =>
      have hrow : (0 :: lcsRowAux c s2 prev 0).length = s2.length + 1 := by
        simp only [List.length_cons]
        rw [lcsRowAux_length c s2 prev 0 (le_of_eq hprev.symm)]
      have := ih (0 :: lcsRowAux c s2 prev 0) hrow i j (by simpa using hi) hj
      simp only [lcsGet, lcsRows, List.getD_cons_succ] at this ⊢
      exact this

lemma computeLCS_zero_row (str1 str2 : String) (j : Nat) :
    lcsGet (computeLCS str1 str2) 0 j = 0 := by
  simp only [computeLCS, lcsGet, List.getD_cons_zero]
  exact getD_replicate_zero _ j

lemma computeLCS_zero_col (str1 str2 : String) (i : Nat) :
    lcsGet (computeLCS str1 str2) i 0 = 0 := by
  cases i with
  | zero => exact computeLCS_zero_row str1 str2 0
  | succ i =>
    simp only [computeLCS, lcsGet, List.getD_cons_succ]
    exact lcsRows_getD_head _ _ _ i

lemma computeLCS_step (str1 str2 : String) (i j : Nat)
    (hi : i < str1.length) (hj : j < str2.length) :
    lcsGet (computeLCS str1 str2) (i + 1) (j + 1) =
      if str1.data.getD i ' ' = str2.data.getD j ' '
      then lcsGet (computeLCS str1 str2) i j + 1
      else max (lcsGet (computeLCS str1 str2) i (j + 1))
               (lcsGet (computeLCS str1 str2) (i + 1) j) := by
  have hlen : (List.replicate (str2.length + 1) (0 : Nat)).length
      = str2.data.length + 1 := by
    rw [List.length_replicate, String.length_data]
  have := lcsTable_step str2.data str1.data
    (List.replicate (str2.length + 1) 0) hlen i j hi hj
  exact this

lemma backtrack_spec (str1 str2 : String) :
    ∀ (fuel i j : Nat), i + j ≤ fuel → i ≤ str1.length → j ≤ str2.length →
      ∀ l r, backtrack str1.data str2.data (computeLCS str1 str2) fuel i j = (l, r) →
      l.map Seg.text = str1.data.take i ∧
      r.map Seg.text = str2.data.take j ∧
      (∀ s ∈ l, s.type ≠ SegType.added) ∧
      (∀ s ∈ r, s.type ≠ SegType.removed) ∧
      countUnchanged l = lcsGet (computeLCS str1 str2) i j ∧
      countUnchanged r = lcsGet (computeLCS str1 str2) i j := by
  intro fuel
  induction fuel with
  | zero =>
    intro i j hf hi hj l r h
    have hi0 : i = 0 := by omega
    have hj0 : j = 0 := by omega
    subst hi0; subst hj0
    simp only [backtrack] at h
    injection h with h1 h2
    subst h1; subst h2
    exact ⟨by simp, by simp, by simp, by simp,
      by simp [countUnchanged, computeLCS_zero_col],
      by simp [countUnchanged, computeLCS_zero_col]⟩
  | succ fuel ih =>
    intro i j hf hi hj l r h
    simp only [backtrack] at h
    split at h
    next h00 =>
      obtain ⟨hi0, hj0⟩ := h00
      subst hi0; subst hj0
      injection h with h1 h2
      subst h1; subst h2
      exact ⟨by simp, by simp, by simp, by simp,
        by simp [countUnchanged, computeLCS_zero_col],
        by simp [countUnchanged, computeLCS_zero_col]⟩
    next h00 =>
      split at h
      next heq =>
        obtain ⟨hi1, hj1, hcc⟩ := heq
        obtain ⟨i, rfl⟩ : ∃ a, i = a + 1 := ⟨i - 1, by omega⟩
        obtain ⟨j, rfl⟩ : ∃ a, j = a + 1 := ⟨j - 1, by omega⟩
        simp only [Nat.add_sub_cancel] at h hcc
        have hil : i < str1.data.length := by
          rw [String.length_data]; omega
        have hjl : j < str2.data.length := by
          rw [String.length_data]; omega
        obtain ⟨c1, hc1⟩ : ∃ c, str1.data.get? i = some c := by
          rw [List.get?_eq_getElem?]
          exact ⟨_, List.getElem?_eq_getElem hil⟩
        have hc2 : str2.data.get? j = some c1 := hcc.symm.trans hc1
        obtain ⟨l', r', hrec⟩ :
            ∃ l' r', backtrack str1.data str2.data (computeLCS str1 str2) fuel i j
              = (l', r') := ⟨_, _, rfl⟩
        rw [hrec] at h
        simp only [hc1, hc2, Option.getD_some] at h
        injection h with h1 h2
        subst h1; subst h2
        obtain ⟨e1, e2, e3, e4, e5, e6⟩ :=
          ih i j (by omega) (by omega) (by omega) l' r' hrec
        have hstep := computeLCS_step str1 str2 i j (by omega) (by omega)
        have hgd1 : str1.data.getD i ' ' = c1 := by
          rw [List.getD_eq_getElem?_getD, ← List.get?_eq_getElem?, hc1]; rfl
        have hgd2 : str2.data.getD j ' ' = c1 := by
          rw [List.getD_eq_getElem?_getD, ← List.get?_eq_getElem?, hc2]; rfl
        rw [if_pos (hgd1.trans hgd2.symm)] at hstep
        refine ⟨?_, ?_, ?_, ?_, ?_, ?_⟩
        · rw [List.map_append, e1, List.take_succ]
          simp [← List.get?_eq_getElem?, hc1]
        · rw [List.map_append, e2, List.take_succ]
          simp [← List.get?_eq_getElem?, hc2]
        · intro s hs
          rcases List.mem_append.mp hs with hs | hs
          · exact e3 s hs
          · simp only [List.mem_singleton] at hs; subst hs; simp
        · intro s hs
          rcases List.mem_append.mp hs with hs | hs
          · exact e4 s hs
          · simp only [List.mem_singleton] at hs; subst hs; simp
        · rw [countUnchanged_append, e5, hstep]
          simp [countUnchanged]
        · rw [countUnchanged_append, e6, hstep]
          simp [countUnchanged]
      next hne =>
        split at h
        next hadd =>
          obtain ⟨hj1, hor⟩ := hadd
          obtain ⟨j, rfl⟩ : ∃ a, j = a + 1 := ⟨j - 1, by omega⟩
          simp only [Nat.add_sub_cancel] at h hor hne
          have hjl : j < str2.data.length := by
            rw [String.length_data]; omega
          obtain ⟨c2, hc2⟩ : ∃ c, str2.data.get? j = some c := by
            rw [List.get?_eq_getElem?]
            exact ⟨_, List.getElem?_eq_getElem hjl⟩
          obtain ⟨l', r', hrec⟩ :
              ∃ l' r', backtrack str1.data str2.data (computeLCS str1 str2) fuel i j
                = (l', r') := ⟨_, _, rfl⟩
          rw [hrec] at h
          simp only [hc2, Option.getD_some] at h
          injection h with h1 h2
          subst h1; subst h2
          obtain ⟨e1, e2, e3, e4, e5, e6⟩ :=
            ih i j (by omega) (by omega) (by omega) l' r' hrec
          have hcount : lcsGet (computeLCS str1 str2) i j
              = lcsGet (computeLCS str1 str2) i (j + 1) := by
            rcases Nat.eq_zero_or_pos i with hi0 | hipos
            · subst hi0
              rw [computeLCS_zero_row, computeLCS_zero_row]
            · rcases hor with hi0 | hle
              · omega
              · obtain ⟨i, rfl⟩ : ∃ a, i = a + 1 := ⟨i - 1, by omega⟩
                have hne' : str1.data.getD i ' ' ≠ str2.data.getD j ' ' := by
                  intro hgd
                  apply hne
                  refine ⟨by omega, by omega, ?_⟩
                  simp only [Nat.add_sub_cancel]
                  have h1l : i < str1.data.length := by
                    rw [String.length_data]; omega
                  rw [List.get?_eq_getElem?, List.get?_eq_getElem?,
                    List.getElem?_eq_getElem h1l, List.getElem?_eq_getElem hjl]
                  rw [List.getD_eq_getElem?_getD, List.getD_eq_getElem?_getD,
                    List.getElem?_eq_getElem h1l, List.getElem?_eq_getElem hjl]
                      at hgd
                  simpa using hgd
                have hstep := computeLCS_step str1 str2 i j (by omega) (by omega)
                rw [if_neg hne'] at hstep
                simp only [Nat.add_sub_cancel] at hle
                rw [hstep, max_eq_right hle]
          refine ⟨e1, ?_, e3, ?_, ?_, ?_⟩
          · rw [List.map_append, e2, List.take_succ]
            simp [← List.get?_eq_getElem?, hc2]
          · intro s hs
            rcases List.mem_append.mp hs with hs | hs
            · exact e4 s hs
            · simp only [List.mem_singleton] at hs; subst hs; simp
          · rw [e5, hcount]
          · rw [countUnchanged_append, e6, hcount]
            simp [countUnchanged]
        next hnadd =>
          split at h
          next hi1 =>
            obtain ⟨i, rfl⟩ : ∃ a, i = a + 1 := ⟨i - 1, by omega⟩
            simp only [Nat.add_sub_cancel] at h hne hnadd
            have hil : i < str1.data.length := by
              rw [String.length_data]; omega
            obtain ⟨c1, hc1⟩ : ∃ c, str1.data.get? i = some c := by
              rw [List.get?_eq_getElem?]
              exact ⟨_, List.getElem?_eq_getElem hil⟩
            obtain ⟨l', r', hrec⟩ :
                ∃ l' r', backtrack str1.data str2.data (computeLCS str1 str2)
                  fuel i j = (l', r') := ⟨_, _, rfl⟩
            rw [hrec] at h
            simp only [hc1, Option.getD_some] at h
            injection h with h1 h2
            subst h1; subst h2
            obtain ⟨e1, e2, e3, e4, e5, e6⟩ :=
              ih i j (by omega) (by omega) hj l' r' hrec
            have hcount : lcsGet (computeLCS str1 str2) i j
                = lcsGet (computeLCS str1 str2) (i + 1) j := by
              rcases Nat.eq_zero_or_pos j with hj0 | hj0
              · subst hj0
                rw [computeLCS_zero_col, computeLCS_zero_col]
              · obtain ⟨j, rfl⟩ : ∃ a, j = a + 1 := ⟨j - 1, by omega⟩
                have hjl : j < str2.data.length := by
                  rw [String.length_data]; omega
                have hne' : str1.data.getD i ' ' ≠ str2.data.getD j ' ' := by
                  intro hgd
                  apply hne
                  refine ⟨by omega, by omega, ?_⟩
                  simp only [Nat.add_sub_cancel]
                  rw [List.get?_eq_getElem?, List.get?_eq_getElem?,
                    List.getElem?_eq_getElem hil, List.getElem?_eq_getElem hjl]
                  rw [List.getD_eq_getElem?_getD, List.getD_eq_getElem?_getD,
                    List.getElem?_eq_getElem hil, List.getElem?_eq_getElem hjl]
                      at hgd
                  simpa using hgd
                have hlt : lcsGet (computeLCS str1 str2) (i + 1) j
                    < lcsGet (computeLCS str1 str2) i (j + 1) := by
                  by_contra hle
                  push_neg at hle
                  exact hnadd ⟨by omega, Or.inr (by
                    simpa only [Nat.add_sub_cancel] using hle)⟩
                have hstep := computeLCS_step str1 str2 i j (by omega) (by omega)
                rw [if_neg hne'] at hstep
                rw [hstep, max_eq_left (le_of_lt hlt)]
            refine ⟨?_, e2, ?_, e4, ?_, ?_⟩
            · rw [List.map_append, e1, List.take_succ]
              simp [← List.get?_eq_getElem?, hc1]
            · intro s hs
              rcases List.mem_append.mp hs with hs | hs
              · exact e3 s hs
              · simp only [List.mem_singleton] at hs; subst hs; simp
            · rw [countUnchanged_append, e5, hcount]
              simp [countUnchanged]
            · rw [e6, hcount]
          next hi0 =>
            exfalso
            apply h00
            constructor
            · omega
            · rcases Nat.eq_zero_or_pos j with hj0 | hj0
              · exact hj0
              · exact absurd ⟨hj0, Or.inl (by omega)⟩ hnadd

/-- C4: for every pair of strings `a` and `b`, in
`highlightDifferences(a, b)` the concatenation of the characters of all
Unchanged and Removed segments of the left sequence reconstructs `a`, the
concatenation of the characters of all Unchanged and Added segments of
the right sequence reconstructs `b`, and the number of Unchanged segments
(the same on both sides) equals the LCS length
`computeLCS(a, b)[|a|][|b|]`; in particular for `a = "kitten"`,
`b = "sitting"` that count is 4. -/
theorem c4_highlight_reconstruction_and_lcs_count :
    (∀ a b : String,
      ((((highlightDifferences a b).1.filter
            (fun s => s.type = SegType.unchanged ∨ s.type = SegType.removed)).map
          Seg.text).asString = a ∧
       (((highlightDifferences a b).2.filter
            (fun s => s.type = SegType.unchanged ∨ s.type = SegType.added)).map
          Seg.text).asString = b) ∧
      countUnchanged (highlightDifferences a b).1
        = countUnchanged (highlightDifferences a b).2 ∧
      countUnchanged (highlightDifferences a b).1
        = lcsGet (computeLCS a b) a.length b.length) ∧
    countUnchanged (highlightDifferences "kitten" "sitting").1 = 4 := by
  constructor
  · intro a b
    obtain ⟨l, r, hrec⟩ :
        ∃ l r, backtrack a.data b.data (computeLCS a b)
          (a.length + b.length) a.length b.length = (l, r) := ⟨_, _, rfl⟩
    have hpair : highlightDifferences a b = (l, r) := hrec
    obtain ⟨e1, e2, e3, e4, e5, e6⟩ :=
      backtrack_spec a b (a.length + b.length) a.length b.length
        le_rfl le_rfl le_rfl l r hrec
    have hfl : l.filter
        (fun s => s.type = SegType.unchanged ∨ s.type = SegType.removed) = l := by
      rw [List.filter_eq_self]
      intro s hs
      have := e3 s hs
      cases htype : s.type <;> simp_all
    have hfr : r.filter
        (fun s => s.type = SegType.unchanged ∨ s.type = SegType.added) = r := by
      rw [List.filter_eq_self]
      intro s hs
      have := e4 s hs
      cases htype : s.type <;> simp_all
    have htakel : a.data.take a.length = a.data :=
      List.take_of_length_le (le_of_eq (String.length_data a))
    have htaker : b.data.take b.length = b.data :=
      List.take_of_length_le (le_of_eq (String.length_data b))
    rw [hpair]
    refine ⟨⟨?_, ?_⟩, ?_, ?_⟩
    · rw [hfl, List.asString_eq, e1, htakel]; rfl
    · rw [hfr, List.asString_eq, e2, htaker]; rfl
    · exact e5.trans e6.symm
    · exact e5
  · decide

lemma charListLt_nil_right : ∀ a, charListLt a [] = false
  | [] => rfl
  | _ :: _ => rfl

lemma charListLt_irrefl : ∀ a, charListLt a a = false
  | [] => rfl
  | c :: cs => by simp [charListLt, charListLt_irrefl cs]

lemma charListLt_asymm : ∀ a b, charListLt a b = true → charListLt b a = false
  | [], [] => by simp [charListLt]
  | [], _ :: _ => by simp [charListLt]
  | _ :: _, [] => by simp [charListLt]
  | a :: as, b :: bs => by
    simp only [charListLt]
    rcases lt_trichotomy a b with h | h | h
    · simp [h, asymm h, not_lt_of_lt h]
    · subst h
      simp only [if_neg (lt_irrefl a)]
      exact charListLt_asymm as bs
    · simp [h, asymm h, not_lt_of_lt h]

lemma charListLt_connex :
    ∀ a b, charListLt a b = false → charListLt b a = false → a = b
  | [], [], _, _ => rfl
  | [], _ :: _, h, _ => by simp [charListLt] at h
  | _ :: _, [], _, h => by simp [charListLt] at h
  | a :: as, b :: bs, h1, h2 => by
    rcases lt_trichotomy a b with h | h | h
    · simp [charListLt, h] at h1
    · subst h
      simp only [charListLt, lt_irrefl, if_false] at h1 h2
      rw [charListLt_connex as bs h1 h2]
    · simp [charListLt, h] at h2

lemma charListLt_trans :
    ∀ a b c, charListLt a b = true → charListLt b c = true →
      charListLt a c = true
  | [], _, [], _, h => by rw [charListLt_nil_right] at h; exact Bool.noConfusion h
  | [], _, _ :: _, _, _ => by simp [charListLt]
  | _ :: _, [], _, h, _ => by simp [charListLt] at h
  | _ :: _, _ :: _, [], _, h => by
    rw [charListLt_nil_right] at h; exact Bool.noConfusion h
  | a :: as, b :: bs, c :: cs, h1, h2 => by
    simp only [charListLt] at h1 h2 ⊢
    rcases lt_trichotomy a b with hab | hab | hab
    · rcases lt_trichotomy b c with hbc | hbc | hbc
      · simp [lt_trans hab hbc]
      · subst hbc; simp [hab]
      · simp [hbc, asymm hbc, not_lt_of_lt hbc] at h2
    · subst hab
      rcases lt_trichotomy a c with hac | hac | hac
      · simp [hac]
      · subst hac
        simp only [lt_irrefl, if_false] at h1 h2 ⊢
        exact charListLt_trans as bs cs h1 h2
      · simp [hac, asymm hac, not_lt_of_lt hac] at h2
    · simp [hab, asymm hab, not_lt_of_lt hab] at h1

lemma strLe_total (a b : String) : strLe a b ∨ strLe b a := by
  unfold strLe jsLt
  cases h : charListLt b.data a.data with
  | false => exact Or.inl rfl
  | true => exact Or.inr (charListLt_asymm _ _ h)

lemma strLe_trans {a b c : String} (h1 : strLe a b) (h2 : strLe b c) :
    strLe a c := by
  unfold strLe jsLt at h1 h2 ⊢
  cases hca : charListLt c.data a.data with
  | false => rfl
  | true =>
    exfalso
    cases hcb : charListLt c.data b.data with
    | true => rw [hcb] at h2; exact Bool.noConfusion h2
    | false =>
      cases hbc : charListLt b.data c.data with
      | true =>
        have := charListLt_trans _ _ _ hbc hca
        rw [this] at h1
        exact Bool.noConfusion h1
      | false =>
        have hbceq := charListLt_connex _ _ hbc hcb
        rw [hbceq] at h1
        rw [hca] at h1
        exact Bool.noConfusion h1

lemma strLe_antisymm {a b : String} (h1 : strLe a b) (h2 : strLe b a) :
    a = b := by
  unfold strLe jsLt at h1 h2
  have := charListLt_connex _ _ h2 h1
  exact String.ext this

lemma jsLt_irrefl (a : String) : jsLt a a = false :=
  charListLt_irrefl a.data

lemma localeCompare_nonpos_iff (a b : String) :
    localeCompare a b ≤ 0 ↔ strLe a b := by
  unfold localeCompare strLe
  cases h : jsLt a b with
  | true =>
    simp only [if_true, if_pos]
    constructor
    · intro _; exact charListLt_asymm _ _ h
    · intro _; norm_num
  | false =>
    by_cases he : a = b
    · subst he
      simp [jsLt_irrefl]
    · simp only [if_neg he, Bool.false_eq_true, if_false]
      constructor
      · intro hc; norm_num at hc
      · intro hc
        exfalso
        exact he (String.ext (charListLt_connex _ _ h hc))

instance : IsTotal String strLe := ⟨strLe_total⟩

instance : IsTrans String strLe := ⟨fun _ _ _ => strLe_trans⟩

instance : IsAntisymm String strLe := ⟨fun _ _ => strLe_antisymm⟩

instance : IsTotal PropGroup (fun a b => localeCompare a.key b.key ≤ 0) :=
  ⟨fun a b => by
    rcases strLe_total a.key b.key with h | h
    · exact Or.inl ((localeCompare_nonpos_iff _ _).mpr h)
    · exact Or.inr ((localeCompare_nonpos_iff _ _).mpr h)⟩

instance : IsTrans PropGroup (fun a b => localeCompare a.key b.key ≤ 0) :=
  ⟨fun _ _ _ h1 h2 => (localeCompare_nonpos_iff _ _).mpr
    (strLe_trans ((localeCompare_nonpos_iff _ _).mp h1)
      ((localeCompare_nonpos_iff _ _).mp h2))⟩

lemma groupEntries_recover :
    ∀ (entries pending : List Entry),
      ((groupEntries entries pending).1.flatMap
          (fun p => p.comments ++ [p.entry]))
        ++ (groupEntries entries pending).2 = pending ++ entries := by
  intro entries
  induction entries with
  | nil => intro pending; simp [groupEntries]
  | cons e rest ih =>
    intro pending
    cases e with
    | comment s =>
      rw [show groupEntries (Entry.comment s :: rest) pending
          = groupEntries rest (pending ++ [Entry.comment s]) from rfl, ih]
      simp
    | blank =>
      rw [show groupEntries (Entry.blank :: rest) pending
          = groupEntries rest (pending ++ [Entry.blank]) from rfl, ih]
      simp
    | property k v line =>
      have hg : groupEntries (Entry.property k v line :: rest) pending
          = (⟨k, v, pending, Entry.property k v line⟩
              :: (groupEntries rest []).1, (groupEntries rest []).2) := rfl
      rw [hg]
      have := ih []
      simp only [List.nil_append] at this
      simp only [List.flatMap_cons, List.append_assoc, this]
      simp

/-- Pending absorption: leading comment/blank entries are moved into the
pending accumulator. -/
lemma groupEntries_absorb :
    ∀ (cs : List Entry), (∀ x ∈ cs, isCommentOrBlank x) →
      ∀ (rest pending : List Entry),
      groupEntries (cs ++ rest) pending = groupEntries rest (pending ++ cs) := by
  intro cs
  induction cs with
  | nil => intro _ rest pending; simp
  | cons c cs ih =>
    intro hcb rest pending
    have hc := hcb c (List.mem_cons_self c cs)
    have hcs : ∀ x ∈ cs, isCommentOrBlank x :=
      fun x hx => hcb x (List.mem_cons_of_mem c hx)
    cases c with
    | property k v line => simp [isCommentOrBlank] at hc
    | comment s =>
      rw [List.cons_append,
        show groupEntries (Entry.comment s :: (cs ++ rest)) pending
          = groupEntries (cs ++ rest) (pending ++ [Entry.comment s]) from rfl,
        ih hcs rest _]
      simp
    | blank =>
      rw [List.cons_append,
        show groupEntries (Entry.blank :: (cs ++ rest)) pending
          = groupEntries (cs ++ rest) (pending ++ [Entry.blank]) from rfl,
        ih hcs rest _]
      simp

/-- Invariant of the grouping loop: every produced group has a
comment/blank comments block and a property entry carrying its key and
value, and the trailing list is all comments/blanks. -/
lemma groupEntries_inv :
    ∀ (entries pending : List Entry), (∀ x ∈ pending, isCommentOrBlank x) →
      (∀ g ∈ (groupEntries entries pending).1,
        (∀ x ∈ g.comments, isCommentOrBlank x) ∧
        ∃ line, g.entry = Entry.property g.key g.value line) ∧
      (∀ x ∈ (groupEntries entries pending).2, isCommentOrBlank x) := by
  intro entries
  induction entries with
  | nil =>
    intro pending hp
    refine ⟨fun g hg => ?_, fun x hx => hp x hx⟩
    simp [groupEntries] at hg
  | cons e rest ih =>
    intro pending hp
    cases e with
    | comment s =>
      refine ih (pending ++ [Entry.comment s]) ?_
      intro x hx
      rcases List.mem_append.mp hx with hx | hx
      · exact hp x hx
      · simp only [List.mem_singleton] at hx; subst hx; rfl
    | blank =>
      refine ih (pending ++ [Entry.blank]) ?_
      intro x hx
      rcases List.mem_append.mp hx with hx | hx
      · exact hp x hx
      · simp only [List.mem_singleton] at hx; subst hx; rfl
    | property k v line =>
      have hrest := ih [] (by intro x hx; simp at hx)
      constructor
      · intro g hg
        have : g = ⟨k, v, pending, Entry.property k v line⟩
            ∨ g ∈ (groupEntries rest []).1 := by
          simpa [groupEntries] using hg
        rcases this with rfl | hg'
        · exact ⟨hp, ⟨line, rfl⟩⟩
        · exact hrest.1 g hg'
      · intro x hx
        have : x ∈ (groupEntries rest []).2 := by
          simpa [groupEntries] using hx
        exact hrest.2 x this

/-- Re-grouping the canonical interleaving of groups and trailing block
recovers exactly the groups and the trailing block. -/
lemma groupEntries_canonical :
    ∀ (gs : List PropGroup),
      (∀ g ∈ gs,
        (∀ x ∈ g.comments, isCommentOrBlank x) ∧
        ∃ line, g.entry = Entry.property g.key g.value line) →
      ∀ (tr : List Entry), (∀ x ∈ tr, isCommentOrBlank x) →
      groupEntries ((gs.flatMap (fun p => p.comments ++ [p.entry])) ++ tr) []
        = (gs, tr) := by
  intro gs
  induction gs with
  | nil =>
    intro _ tr htr
    simp only [List.flatMap_nil, List.nil_append]
    have h := groupEntries_absorb tr htr [] []
    simp only [List.append_nil, List.nil_append] at h
    rw [h]
    simp [groupEntries]
  | cons g gs ih =>
    intro hinv tr htr
    obtain ⟨hgc, line, hge⟩ := hinv g (List.mem_cons_self g gs)
    have hgs : ∀ g' ∈ gs,
        (∀ x ∈ g'.comments, isCommentOrBlank x) ∧
        ∃ line, g'.entry = Entry.property g'.key g'.value line :=
      fun g' hg' => hinv g' (List.mem_cons_of_mem g hg')
    simp only [List.flatMap_cons, List.append_assoc]
    rw [groupEntries_absorb g.comments hgc _ [], List.nil_append]
    rw [show ([g.entry] ++ (gs.flatMap (fun p => p.comments ++ [p.entry]) ++ tr))
        = g.entry :: (gs.flatMap (fun p => p.comments ++ [p.entry]) ++ tr)
      from rfl]
    rw [hge]
    have hstep : groupEntries
        (Entry.property g.key g.value line
          :: (gs.flatMap (fun p => p.comments ++ [p.entry]) ++ tr)) g.comments
        = (⟨g.key, g.value, g.comments, Entry.property g.key g.value line⟩
            :: (groupEntries (gs.flatMap (fun p => p.comments ++ [p.entry]) ++ tr) []).1,
           (groupEntries (gs.flatMap (fun p => p.comments ++ [p.entry]) ++ tr) []).2)
        := rfl
    rw [hstep, ih hgs tr htr]
    rw [← hge]

lemma mem_flatMap_infix {α β : Type} (f : α → List β) :
    ∀ (l : List α) (x : α), x ∈ l → List.IsInfix (f x) (l.flatMap f) := by
  intro l
  induction l with
  | nil => intro x hx; simp at hx
  | cons y ys ih =>
    intro x hx
    rcases List.mem_cons.mp hx with rfl | hx
    · exact ⟨[], ys.flatMap f, by simp⟩
    · obtain ⟨s, t, hst⟩ := ih x hx
      exact ⟨f y ++ s, t, by rw [List.flatMap_cons, ← hst]; simp⟩

/-- C9: for every entry list (each entry being blank, comment or
property by typing, as every output of `PropertyParser.parse` is),
`PropertyParser.sort` returns a permutation of its input: no entry is
invented, dropped, or duplicated. -/
theorem c9_sort_permutation (entries : List Entry) :
    (PropertyParser.sort entries).Perm entries := by
  have hperm : (List.insertionSort (fun a b => localeCompare a.key b.key ≤ 0)
      (groupEntries entries []).1).Perm (groupEntries entries []).1 :=
    List.perm_insertionSort _ _
  have h3 := groupEntries_recover entries []
  simp only [List.nil_append] at h3
  have hp2 : (PropertyParser.sort entries).Perm
      (((groupEntries entries []).1.flatMap (fun p => p.comments ++ [p.entry]))
        ++ (groupEntries entries []).2) :=
    (hperm.flatMap_right _).append_right _
  exact hp2.trans (by rw [h3])

/-- Idempotence of the properties canonicalization sort. -/
lemma sort_sort_eq_sort (entries : List Entry) :
    PropertyParser.sort (PropertyParser.sort entries)
      = PropertyParser.sort entries := by
  have hinv := groupEntries_inv entries [] (by intro x hx; simp at hx)
  have hre := groupEntries_canonical
    (List.insertionSort (fun a b => localeCompare a.key b.key ≤ 0)
      (groupEntries entries []).1)
    (fun g' hg' => hinv.1 g' ((List.mem_insertionSort _).mp hg'))
    (groupEntries entries []).2 hinv.2
  have h1 : PropertyParser.sort entries
      = ((List.insertionSort (fun a b => localeCompare a.key b.key ≤ 0)
          (groupEntries entries []).1).flatMap
            (fun p => p.comments ++ [p.entry]))
        ++ (groupEntries entries []).2 := rfl
  rw [h1]
  have h2 : ∀ input : List Entry, PropertyParser.sort input
      = ((List.insertionSort (fun a b => localeCompare a.key b.key ≤ 0)
          (groupEntries input []).1).flatMap
            (fun p => p.comments ++ [p.entry]))
        ++ (groupEntries input []).2 := fun _ => rfl
  rw [h2, hre]
  have hss : List.Sorted (fun a b => localeCompare a.key b.key ≤ 0)
      (List.insertionSort (fun a b => localeCompare a.key b.key ≤ 0)
        (groupEntries entries []).1) :=
    List.sorted_insertionSort _ _
  rw [List.Sorted.insertionSort_eq hss]

/-- C6: `PropertyParser.sort` keeps each property's immediately
preceding comment/blank block attached to that property across key
reordering (the block followed by its property occurs contiguously in
the output); concretely,
`sort(parse("# note\nzeta=1\nalpha=2"))` is the property `alpha=2`,
then the comment line `# note`, then the property `zeta=1`. -/
theorem c6_comment_adhesion :
    (∀ (entries : List Entry) (g : PropGroup),
      g ∈ (groupEntries entries []).1 →
      List.IsInfix (g.comments ++ [g.entry]) (PropertyParser.sort entries)) ∧
    PropertyParser.sort (PropertyParser.parse "# note\nzeta=1\nalpha=2")
      = [Entry.property "alpha" "2" "alpha=2", Entry.comment "# note",
         Entry.property "zeta" "1" "zeta=1"] := by
  constructor
  · intro entries g hg
    have hmem : g ∈ List.insertionSort
        (fun a b => localeCompare a.key b.key ≤ 0) (groupEntries entries []).1 :=
      (List.mem_insertionSort _).mpr hg
    obtain ⟨s, t, hst⟩ := mem_flatMap_infix
      (fun p => p.comments ++ [p.entry]) _ g hmem
    have h1 : PropertyParser.sort entries
        = ((List.insertionSort (fun a b => localeCompare a.key b.key ≤ 0)
            (groupEntries entries []).1).flatMap
              (fun p => p.comments ++ [p.entry]))
          ++ (groupEntries entries []).2 := rfl
    exact ⟨s, t ++ (groupEntries entries []).2, by rw [h1, ← hst]; simp⟩
  · decide

lemma resolveContinuation_ge (allLines : List String) :
    ∀ (fuel : Nat) (line : String) (idx : Nat),
      idx ≤ (resolveContinuation allLines fuel line idx).2 := by
  intro fuel
  induction fuel with
  | zero => intro line idx; exact le_rfl
  | succ fuel ih =>
    intro line idx
    simp only [resolveContinuation]
    split
    · exact le_trans (by omega) (ih _ (idx + 1))
    · exact le_rfl

lemma parsePropertyLine_nextIndex (line : String) (lines : List String)
    (i : Nat) (res : PropLineResult)
    (h : parsePropertyLine line lines i = some res) :
    i + 1 ≤ res.nextIndex := by
  have hge := resolveContinuation_ge lines lines.length line i
  simp only [parsePropertyLine] at h
  split at h
  · injection h with h'
    subst h'
    exact Nat.succ_le_succ hge
  · split at h
    · injection h with h'
      subst h'
      exact Nat.succ_le_succ hge
    · exact absurd h (by simp)

lemma parseLoop_fuel (lines : List String) :
    ∀ (fuel fuel' i : Nat), lines.length - i ≤ fuel →
      lines.length - i ≤ fuel' →
      parseLoop lines fuel i = parseLoop lines fuel' i := by
  intro fuel
  induction fuel with
  | zero =>
    intro fuel' i h _
    have hn : ¬ i < lines.length := by omega
    cases fuel' with
    | zero => rfl
    | succ fuel' => simp [parseLoop, hn]
  | succ fuel ih =>
    intro fuel' i h h'
    cases fuel' with
    | zero =>
      have hn : ¬ i < lines.length := by omega
      simp [parseLoop, hn]
    | succ fuel'' =>
      by_cases hi : i < lines.length
      · by_cases h1 : jsTrim (lines.getD i "") = ""
        · simp only [parseLoop, if_pos hi, if_pos h1]
          rw [ih fuel'' (i + 1) (by omega) (by omega)]
        · by_cases h2 : (jsStartsWith (jsTrim (lines.getD i "")) "#"
              || jsStartsWith (jsTrim (lines.getD i "")) "!") = true
          · simp only [parseLoop, if_pos hi, if_neg h1, if_pos h2]
            rw [ih fuel'' (i + 1) (by omega) (by omega)]
          · cases hres : parsePropertyLine (lines.getD i "") lines i with
            | some res =>
              have hni := parsePropertyLine_nextIndex _ _ _ _ hres
              simp only [parseLoop, if_pos hi, if_neg h1, if_neg h2, hres]
              rw [ih fuel'' res.nextIndex (by omega) (by omega)]
            | none =>
              simp only [parseLoop, if_pos hi, if_neg h1, if_neg h2, hres]
              rw [ih fuel'' (i + 1) (by omega) (by omega)]
      · simp [parseLoop, hi]

/-- C7: `PropertyParser.parse` never fails on any string input: it is a
total function whose result does not depend on the loop fuel once the
fuel covers the line count (the loop index strictly increases, so the
line count itself suffices); every produced entry is a blank, comment or
property; and a non-blank, non-comment line for which (after
continuation resolution) neither the separator pattern nor the
whitespace-fallback pattern matches is reclassified as a comment entry
carrying the raw line. -/
theorem c7_parse_never_fails :
    (∀ (text : String) (fuel : Nat), (jsSplitNewlines text).length ≤ fuel →
      parseLoop (jsSplitNewlines text) fuel 0 = PropertyParser.parse text) ∧
    (∀ (text : String), ∀ e ∈ PropertyParser.parse text,
      e = Entry.blank ∨ (∃ s, e = Entry.comment s) ∨
        ∃ k v l, e = Entry.property k v l) ∧
    (∀ (lines : List String) (fuel i : Nat), i < lines.length →
      jsTrim (lines.getD i "") ≠ "" →
      ¬ (jsStartsWith (jsTrim (lines.getD i "")) "#"
          || jsStartsWith (jsTrim (lines.getD i "")) "!") = true →
      parsePropertyLine (lines.getD i "") lines i = none →
      parseLoop lines (fuel + 1) i
        = Entry.comment (lines.getD i "") :: parseLoop lines fuel (i + 1)) := by
  refine ⟨?_, ?_, ?_⟩
  · intro text fuel hf
    exact parseLoop_fuel _ fuel (jsSplitNewlines text).length 0
      (by omega) (by omega)
  · intro text e _
    cases e with
    | blank => exact Or.inl rfl
    | comment s => exact Or.inr (Or.inl ⟨s, rfl⟩)
    | property k v l => exact Or.inr (Or.inr ⟨k, v, l, rfl⟩)
  · intro lines fuel i hi h1 h2 hres
    simp only [parseLoop, if_pos hi, if_neg h1, if_neg h2, hres]

/-- Witness for C7 at a concrete malformed line: `"???"` matches neither
pattern and is reclassified as a comment. -/
theorem c7_parse_never_fails_witness :
    parseLoop ["???"] 2 0
      = Entry.comment "???" :: parseLoop ["???"] 1 1 :=
  c7_parse_never_fails.2.2 ["???"] 1 0 (by decide) (by decide)
    (by decide) (by decide)

/-- Witness for C6 at the concrete example: the `zeta` property group
carries the `# note` comment, and that block is contiguous in the sorted
output. -/
theorem c6_comment_adhesion_witness :
    (PropGroup.mk "zeta" "1" [Entry.comment "# note"]
        (Entry.property "zeta" "1" "zeta=1"))
      ∈ (groupEntries (PropertyParser.parse "# note\nzeta=1\nalpha=2") []).1 ∧
    List.IsInfix
      ([Entry.comment "# note"] ++ [Entry.property "zeta" "1" "zeta=1"])
      (PropertyParser.sort (PropertyParser.parse "# note\nzeta=1\nalpha=2")) :=
  ⟨by decide, c6_comment_adhesion.1
    (PropertyParser.parse "# note\nzeta=1\nalpha=2")
    (PropGroup.mk "zeta" "1" [Entry.comment "# note"]
      (Entry.property "zeta" "1" "zeta=1"))
    (by decide)⟩

lemma uniqueKeys_aux :
    ∀ (l acc : List String), acc.Nodup →
      (l.foldl (fun acc k => if k ∈ acc then acc else acc ++ [k]) acc).Nodup ∧
      ∀ k, k ∈ l.foldl (fun acc k => if k ∈ acc then acc else acc ++ [k]) acc
        ↔ (k ∈ acc ∨ k ∈ l) := by
  intro l
  induction l with
  | nil => intro acc h; simpa using h
  | cons x xs ih =>
    intro acc h
    by_cases hx : x ∈ acc
    · have := ih acc h
      simp only [List.foldl_cons, if_pos hx]
      refine ⟨this.1, fun k => ?_⟩
      rw [this.2 k]
      constructor
      · rintro (hk | hk)
        · exact Or.inl hk
        · exact Or.inr (List.mem_cons_of_mem x hk)
      · rintro (hk | hk)
        · exact Or.inl hk
        · rcases List.mem_cons.mp hk with rfl | hk
          · exact Or.inl hx
          · exact Or.inr hk
    · have hacc : (acc ++ [x]).Nodup := by
        simp [List.nodup_append, h, hx]
      have := ih (acc ++ [x]) hacc
      simp only [List.foldl_cons, if_neg hx]
      refine ⟨this.1, fun k => ?_⟩
      rw [this.2 k]
      simp only [List.mem_append, List.mem_singleton, List.mem_cons]
      tauto

lemma uniqueKeys_nodup (l : List String) : (uniqueKeys l).Nodup :=
  (uniqueKeys_aux l [] List.nodup_nil).1

lemma mem_uniqueKeys (l : List String) (k : String) :
    k ∈ uniqueKeys l ↔ k ∈ l := by
  unfold uniqueKeys
  rw [(uniqueKeys_aux l [] List.nodup_nil).2 k]
  simp

lemma mapHas_iff (m : List (String × String)) (k : String) :
    mapHas m k = true ↔ k ∈ mapKeys m := by
  simp only [mapHas, mapKeys, List.any_eq_true, List.mem_map, beq_iff_eq]

lemma sortedKeysOf_nodup (L R : List (String × String)) :
    (DiffEngine.sortedKeysOf L R).Nodup := by
  have := uniqueKeys_nodup (mapKeys L ++ mapKeys R)
  exact ((List.perm_insertionSort strLe _).nodup_iff).mpr this

lemma sortedKeysOf_sorted (L R : List (String × String)) :
    List.Sorted strLe (DiffEngine.sortedKeysOf L R) :=
  List.sorted_insertionSort strLe _

lemma mem_sortedKeysOf (L R : List (String × String)) (k : String) :
    k ∈ DiffEngine.sortedKeysOf L R ↔
      (mapHas L k = true ∨ mapHas R k = true) := by
  rw [DiffEngine.sortedKeysOf, List.mem_insertionSort, mem_uniqueKeys,
    List.mem_append, mapHas_iff, mapHas_iff]

/-- The reconstruction and counting facts about `highlightDifferences`
at full length, extracted from the backtracking invariant. -/
lemma highlight_spec (a b : String) :
    (highlightDifferences a b).1.map Seg.text = a.data ∧
    (highlightDifferences a b).2.map Seg.text = b.data ∧
    countUnchanged (highlightDifferences a b).1
      = lcsGet (computeLCS a b) a.length b.length ∧
    countUnchanged (highlightDifferences a b).2
      = lcsGet (computeLCS a b) a.length b.length := by
  obtain ⟨l, r, hrec⟩ :
      ∃ l r, backtrack a.data b.data (computeLCS a b)
        (a.length + b.length) a.length b.length = (l, r) := ⟨_, _, rfl⟩
  obtain ⟨e1, e2, _, _, e5, e6⟩ :=
    backtrack_spec a b (a.length + b.length) a.length b.length
      le_rfl le_rfl le_rfl l r hrec
  have hpair : highlightDifferences a b = (l, r) := hrec
  rw [hpair]
  refine ⟨?_, ?_, e5, e6⟩
  · rw [e1]
    exact List.take_of_length_le (le_of_eq (String.length_data a))
  · rw [e2]
    exact List.take_of_length_le (le_of_eq (String.length_data b))

lemma computeLCS_symm (a b : String) :
    ∀ (n i j : Nat), i + j ≤ n → i ≤ a.length → j ≤ b.length →
      lcsGet (computeLCS a b) i j = lcsGet (computeLCS b a) j i := by
  intro n
  induction n with
  | zero =>
    intro i j hn _ _
    have hi : i = 0 := by omega
    have hj : j = 0 := by omega
    subst hi; subst hj
    rw [computeLCS_zero_row, computeLCS_zero_row]
  | succ n ih =>
    intro i j hn hi hj
    cases i with
    | zero =>
      rw [computeLCS_zero_row, computeLCS_zero_col]
    | succ i =>
      cases j with
      | zero =>
        rw [computeLCS_zero_col, computeLCS_zero_row]
      | succ j =>
        have hstep1 := computeLCS_step a b i j (by omega) (by omega)
        have hstep2 := computeLCS_step b a j i (by omega) (by omega)
        rw [hstep1, hstep2]
        by_cases hc : a.data.getD i ' ' = b.data.getD j ' '
        · rw [if_pos hc, if_pos hc.symm,
            ih i j (by omega) (by omega) (by omega)]
        · rw [if_neg hc, if_neg (fun h => hc h.symm)]
          rw [ih i (j + 1) (by omega) (by omega) (by omega),
            ih (i + 1) j (by omega) (by omega) (by omega)]
          exact Nat.max_comm _ _

/-- C1: in `DiffEngine.compare`, classification is by key presence, not
value truthiness: for every key present in both key→value maps, the row
built for it is Modified or Unchanged (never Added or Removed), even
when one side's value is the empty string; a row is Added exactly when
the key is absent on the left and present on the right, and Removed in
the converse case; and `compare`'s row list consists of exactly these
per-key rows. -/
theorem c1_classification_by_presence :
    (∀ (L R : List (String × String)) (ft k : String),
      (mapHas L k = true → mapHas R k = true →
        (DiffEngine.diffRowFor L R ft k).status = RowStatus.modified ∨
        (DiffEngine.diffRowFor L R ft k).status = RowStatus.unchanged) ∧
      ((DiffEngine.diffRowFor L R ft k).status = RowStatus.added ↔
        mapHas L k = false ∧ mapHas R k = true) ∧
      ((DiffEngine.diffRowFor L R ft k).status = RowStatus.removed ↔
        mapHas L k = true ∧ mapHas R k = false)) ∧
    (∀ (L R : List (String × String)) (ft : String),
      DiffEngine.compareCore L R ft
        = (DiffEngine.sortedKeysOf L R).map (DiffEngine.diffRowFor L R ft)) := by
  refine ⟨?_, fun L R ft => rfl⟩
  intro L R ft k
  cases hL : mapHas L k <;> cases hR : mapHas R k
  · refine ⟨fun h _ => absurd h (by decide), ?_, ?_⟩
    · simp [DiffEngine.diffRowFor, hL, hR]
    · simp [DiffEngine.diffRowFor, hL, hR]
  · refine ⟨fun h _ => absurd h (by decide), ?_, ?_⟩
    · simp [DiffEngine.diffRowFor, hL, hR]
    · simp [DiffEngine.diffRowFor, hL, hR]
  · refine ⟨fun _ h => absurd h (by decide), ?_, ?_⟩
    · simp [DiffEngine.diffRowFor, hL, hR]
    · simp [DiffEngine.diffRowFor, hL, hR]
  · refine ⟨fun _ _ => ?_, ?_, ?_⟩
    · by_cases hv : mapGet L k ≠ mapGet R k
      · exact Or.inl (by simp [DiffEngine.diffRowFor, hL, hR, hv])
      · exact Or.inr (by simp [DiffEngine.diffRowFor, hL, hR, hv])
    · by_cases hv : mapGet L k ≠ mapGet R k <;>
        simp [DiffEngine.diffRowFor, hL, hR, hv]
    · by_cases hv : mapGet L k ≠ mapGet R k <;>
        simp [DiffEngine.diffRowFor, hL, hR, hv]

/-- Witness for C1 with an empty-string value on the left: the key is
present on both sides, so the row is Modified (not Added). -/
theorem c1_classification_by_presence_witness :
    (DiffEngine.diffRowFor [("a", "")] [("a", "x")] "properties" "a").status
        = RowStatus.modified ∨
      (DiffEngine.diffRowFor [("a", "")] [("a", "x")] "properties" "a").status
        = RowStatus.unchanged :=
  (c1_classification_by_presence.1 [("a", "")] [("a", "x")] "properties" "a").1
    (by decide) (by decide)

/-- C2: `DiffEngine.compare` emits exactly one diff row per key of the
union of the two key sets — the row list is the image of the sorted,
duplicate-free key list, which contains a key exactly when it is present
on at least one side — and the keys appear in lexicographically sorted
order. -/
theorem c2_one_row_per_key_sorted (L R : List (String × String)) (ft : String) :
    DiffEngine.compareCore L R ft
      = (DiffEngine.sortedKeysOf L R).map (DiffEngine.diffRowFor L R ft) ∧
    (DiffEngine.sortedKeysOf L R).Nodup ∧
    List.Sorted strLe (DiffEngine.sortedKeysOf L R) ∧
    ∀ k, k ∈ DiffEngine.sortedKeysOf L R ↔
      (mapHas L k = true ∨ mapHas R k = true) :=
  ⟨rfl, sortedKeysOf_nodup L R, sortedKeysOf_sorted L R, mem_sortedKeysOf L R⟩

/-- Counterexample to C3 as stated: for values `"ab"` vs `"ba"`, the
swapped comparison's Modified row does not carry the role-swapped
mirror of the original row's segment sequences (the LCS tie-break is
asymmetric). -/
theorem c3_swap_counterexample :
    ¬ ((DiffEngine.compareCore [("k", "ba")] [("k", "ab")] "properties").map
          (fun row => row.leftHighlight)
        = (DiffEngine.compareCore [("k", "ab")] [("k", "ba")] "properties").map
          (fun row => row.rightHighlight.map (List.map roleSwap))) := by
  decide

/-- C3 (amended): swapping the two inputs maps the row sequence
row-for-row: the key sequence is unchanged; Added rows become Removed
rows and conversely with rendered lines exchanged; Unchanged rows are
invariant; Modified rows stay Modified with rendered lines exchanged and
key/format preserved; and the swapped row's segment sequences carry the
same character content as the original row's opposite-side sequences,
with the same number of Unchanged segments — but they are not in
general the exact role-swapped mirrors of the original sequences. -/
theorem c3_swap_symmetry_amended :
    ∀ (L R : List (String × String)) (ft : String),
      DiffEngine.sortedKeysOf R L = DiffEngine.sortedKeysOf L R ∧
      ∀ k,
        ((DiffEngine.diffRowFor R L ft k).status = RowStatus.removed ↔
          (DiffEngine.diffRowFor L R ft k).status = RowStatus.added) ∧
        ((DiffEngine.diffRowFor R L ft k).status = RowStatus.added ↔
          (DiffEngine.diffRowFor L R ft k).status = RowStatus.removed) ∧
        ((DiffEngine.diffRowFor R L ft k).status = RowStatus.modified ↔
          (DiffEngine.diffRowFor L R ft k).status = RowStatus.modified) ∧
        ((DiffEngine.diffRowFor R L ft k).status = RowStatus.unchanged ↔
          (DiffEngine.diffRowFor L R ft k).status = RowStatus.unchanged) ∧
        (DiffEngine.diffRowFor R L ft k).leftLine
          = (DiffEngine.diffRowFor L R ft k).rightLine ∧
        (DiffEngine.diffRowFor R L ft k).rightLine
          = (DiffEngine.diffRowFor L R ft k).leftLine ∧
        (DiffEngine.diffRowFor R L ft k).key
          = (DiffEngine.diffRowFor L R ft k).key ∧
        (DiffEngine.diffRowFor R L ft k).fileType
          = (DiffEngine.diffRowFor L R ft k).fileType ∧
        (DiffEngine.diffRowFor R L ft k).leftHighlight.map segText
          = (DiffEngine.diffRowFor L R ft k).rightHighlight.map segText ∧
        (DiffEngine.diffRowFor R L ft k).rightHighlight.map segText
          = (DiffEngine.diffRowFor L R ft k).leftHighlight.map segText ∧
        (DiffEngine.diffRowFor R L ft k).leftHighlight.map countUnchanged
          = (DiffEngine.diffRowFor L R ft k).rightHighlight.map countUnchanged := by
  intro L R ft
  constructor
  · apply List.eq_of_perm_of_sorted (r := strLe)
    · apply List.perm_of_nodup_nodup_toFinset_eq
        (sortedKeysOf_nodup R L) (sortedKeysOf_nodup L R)
      ext k
      simp only [List.mem_toFinset, mem_sortedKeysOf]
      tauto
    · exact sortedKeysOf_sorted R L
    · exact sortedKeysOf_sorted L R
  · intro k
    cases hL : mapHas L k <;> cases hR : mapHas R k
    · refine ⟨?_, ?_, ?_, ?_, ?_, ?_, ?_, ?_, ?_, ?_, ?_⟩ <;>
        simp [DiffEngine.diffRowFor, hL, hR]
    · refine ⟨?_, ?_, ?_, ?_, ?_, ?_, ?_, ?_, ?_, ?_, ?_⟩ <;>
        simp [DiffEngine.diffRowFor, hL, hR]
    · refine ⟨?_, ?_, ?_, ?_, ?_, ?_, ?_, ?_, ?_, ?_, ?_⟩ <;>
        simp [DiffEngine.diffRowFor, hL, hR]
    · by_cases hv : mapGet L k = mapGet R k
      · refine ⟨?_, ?_, ?_, ?_, ?_, ?_, ?_, ?_, ?_, ?_, ?_⟩ <;>
          simp [DiffEngine.diffRowFor, hL, hR, hv]
      · have hv' : ¬ mapGet R k = mapGet L k := fun h => hv h.symm
        have hlv := (highlight_spec ((mapGet L k).getD "")
          ((mapGet R k).getD "")).1
        have hrv := (highlight_spec ((mapGet L k).getD "")
          ((mapGet R k).getD "")).2.1
        have hlv' := (highlight_spec ((mapGet R k).getD "")
          ((mapGet L k).getD "")).1
        have hrv' := (highlight_spec ((mapGet R k).getD "")
          ((mapGet L k).getD "")).2.1
        have hc := (highlight_spec ((mapGet R k).getD "")
          ((mapGet L k).getD "")).2.2.1
        have hc' := (highlight_spec ((mapGet L k).getD "")
          ((mapGet R k).getD "")).2.2.2
        have hsym := computeLCS_symm ((mapGet R k).getD "")
          ((mapGet L k).getD "")
          (((mapGet R k).getD "").length + ((mapGet L k).getD "").length)
          ((mapGet R k).getD "").length ((mapGet L k).getD "").length
          le_rfl le_rfl le_rfl
        refine ⟨?_, ?_, ?_, ?_, ?_, ?_, ?_, ?_, ?_, ?_, ?_⟩ <;>
          simp only [DiffEngine.diffRowFor, hL, hR, if_pos rfl, if_neg,
            Bool.not_true, Bool.false_and, Bool.and_false, if_true, if_false,
            Bool.false_eq_true, ne_eq, hv, hv', not_false_iff, ite_true,
            ite_false, Option.map_some, Option.map_none, segText] <;>
          simp [hv, hv', hlv, hrv, hlv', hrv', segText]
        · rw [hc, hc', hsym]

instance : IsTotal (String × YVal × List String)
    (fun a b => strLe a.1 b.1) :=
  ⟨fun a b => strLe_total a.1 b.1⟩

instance : IsTrans (String × YVal × List String)
    (fun a b => strLe a.1 b.1) :=
  ⟨fun _ _ _ h1 h2 => strLe_trans h1 h2⟩

lemma attach_map_eq {α β : Type} (l : List α) (f : {x // x ∈ l} → β)
    (g : α → β) (hfg : ∀ (x : α) (h : x ∈ l), f ⟨x, h⟩ = g x) :
    l.attach.map f = l.map g := by
  have hf : f = fun e => g e.1 := by
    funext e
    obtain ⟨x, h⟩ := e
    exact hfg x h
  rw [hf]
  exact List.attach_map_coe l g

lemma sortRecursively_scalar (s : String) :
    YAMLParser.sortRecursively (YVal.scalar s) = YVal.scalar s := by
  rw [YAMLParser.sortRecursively]

lemma sortRecursively_obj (entries : List (String × YVal × List String)) :
    YAMLParser.sortRecursively (YVal.obj entries)
      = YVal.obj
          ((entries.insertionSort (fun a b => strLe a.1 b.1)).map
            (fun e => (e.1, YAMLParser.sortRecursively e.2.1, e.2.2))) := by
  rw [YAMLParser.sortRecursively]
  congr 1
  apply attach_map_eq
  intro x hx
  obtain ⟨k, val, cs⟩ := x
  cases val with
  | scalar s => simp [sortRecursively_scalar]
  | obj inner => simp

theorem sortRecursively_idem : (v : YVal) →
    YAMLParser.sortRecursively (YAMLParser.sortRecursively v)
      = YAMLParser.sortRecursively v
  | YVal.scalar s => by rw [sortRecursively_scalar, sortRecursively_scalar]
  | YVal.obj entries => by
    rw [sortRecursively_obj entries]
    rw [sortRecursively_obj]
    congr 1
    have hcomm := List.map_insertionSort
      (fun a b : String × YVal × List String => strLe a.1 b.1)
      (fun a b : String × YVal × List String => strLe a.1 b.1)
      (fun e : String × YVal × List String =>
        (e.1, YAMLParser.sortRecursively e.2.1, e.2.2))
      (entries.insertionSort (fun a b => strLe a.1 b.1))
      (fun a _ b _ => Iff.rfl)
    rw [← hcomm]
    rw [List.Sorted.insertionSort_eq
      (List.sorted_insertionSort (fun a b => strLe a.1 b.1) entries)]
    rw [List.map_map]
    apply List.map_congr_left
    intro e he
    have hmem : e ∈ entries :=
      (List.mem_insertionSort (fun a b => strLe a.1 b.1)).mp he
    have hrec := sortRecursively_idem e.2.1
    simp only [Function.comp]
    rw [hrec]
termination_by v => sizeOf v
decreasing_by
  have h1 := List.sizeOf_lt_of_mem hmem
  obtain ⟨k, val, cs⟩ := e
  simp only [YVal.obj.sizeOf_spec, Prod.mk.sizeOf_spec] at h1 ⊢
  omega

/-- The parse cursor never moves backwards. -/
lemma parseLevelGo_mono (lines : List String) :
    ∀ (fuel : Nat) (base : Int) (cur : Nat)
      (acc : List (String × YVal × List String)) (pending : List String)
      (obj : List (String × YVal × List String)) (cur' : Nat),
      parseLevelGo lines fuel base cur acc pending = some (obj, cur') →
      cur ≤ cur' := by
  intro fuel
  induction fuel with
  | zero =>
    intro base cur acc pending obj cur' h
    exact absurd h (by simp [parseLevelGo])
  | succ fuel ih =>
    intro base cur acc pending obj cur' h
    simp only [parseLevelGo] at h
    split at h
    · split at h
      · exact le_trans (by omega) (ih _ _ _ _ _ _ h)
      · split at h
        · exact le_trans (by omega) (ih _ _ _ _ _ _ h)
        · split at h
          · exact le_trans (by omega) (ih _ _ _ _ _ _ h)
          · split at h
            · injection h with h'
              injection h' with h1 h2
              omega
            · split at h
              · injection h with h'
                injection h' with h1 h2
                omega
              · split at h
                · split at h
                  · split at h
                    · split at h
                      · exact absurd h (by simp)
                      · rename_i child cur'' heq2
                        have m1 := ih _ _ _ _ _ _ heq2
                        have m2 := ih _ _ _ _ _ _ h
                        omega
                    · split at h
                      · exact le_trans (by omega) (ih _ _ _ _ _ _ h)
                      · exact le_trans (by omega) (ih _ _ _ _ _ _ h)
                  · exact le_trans (by omega) (ih _ _ _ _ _ _ h)
                · split at h
                  · exact le_trans (by omega) (ih _ _ _ _ _ _ h)
                  · exact le_trans (by omega) (ih _ _ _ _ _ _ h)
    · injection h with h'
      injection h' with h1 h2
      omega

/-- Fuel sufficiency: twice the number of remaining lines plus one loop
exit always suffices. -/
lemma parseLevelGo_some (lines : List String) :
    ∀ (fuel : Nat) (base : Int) (cur : Nat)
      (acc : List (String × YVal × List String)) (pending : List String),
      2 * (lines.length - cur) + 1 ≤ fuel →
      (parseLevelGo lines fuel base cur acc pending).isSome := by
  intro fuel
  induction fuel with
  | zero =>
    intro base cur acc pending h
    omega
  | succ fuel ih =>
    intro base cur acc pending hb
    simp only [parseLevelGo]
    split
    next h0 =>
      split
      · exact ih _ _ _ _ (by omega)
      · split
        · exact ih _ _ _ _ (by omega)
        · split
          · exact ih _ _ _ _ (by omega)
          · split
            · simp
            · split
              · simp
              · split
                · split
                  · split
                    next hnested =>
                      have hs := ih (jsSearchNonWS (lines.getD (cur + 1) ""))
                        (cur + 1) [] [] (by omega)
                      obtain ⟨⟨child, cur''⟩, heq⟩ :=
                        Option.isSome_iff_exists.mp hs
                      rw [heq]
                      have hm := parseLevelGo_mono lines fuel _ _ _ _ _ _ heq
                      exact ih _ _ _ _ (by omega)
                    next hnested =>
                      split
                      · exact ih _ _ _ _ (by omega)
                      · exact ih _ _ _ _ (by omega)
                  · exact ih _ _ _ _ (by omega)
                · split
                  · exact ih _ _ _ _ (by omega)
                  · exact ih _ _ _ _ (by omega)
    next h0 => simp

/-- C5: both canonicalization sorts are idempotent: re-sorting a sorted
properties entry sequence yields the same sequence, and re-sorting a
recursively sorted YAML node yields the same node. -/
theorem c5_canonicalization_idempotent :
    (∀ entries : List Entry,
      PropertyParser.sort (PropertyParser.sort entries)
        = PropertyParser.sort entries) ∧
    (∀ v : YVal,
      YAMLParser.sortRecursively (YAMLParser.sortRecursively v)
        = YAMLParser.sortRecursively v) :=
  ⟨sort_sort_eq_sort, sortRecursively_idem⟩

/-- C8: in `YAMLParser.parseLevel`, a content line indented strictly
deeper than `baseIndent` stops the level without consuming the line only
when `baseIndent` is non-zero (the loop returns immediately with the
accumulator and cursor unchanged); when `baseIndent = 0` the guard is
disabled and the root level itself processes the line — the cursor
strictly advances past it. -/
theorem c8_deep_indent_guard :
    (∀ (lines : List String) (fuel : Nat) (base : Int) (cur : Nat)
        (acc : List (String × YVal × List String)) (pending : List String),
      cur < lines.length →
      jsTrim (lines.getD cur "") ≠ "" →
      jsStartsWith (jsTrim (lines.getD cur "")) "#" = false →
      0 ≤ base →
      jsSearchNonWS (lines.getD cur "") > base →
      base ≠ 0 →
      parseLevelGo lines (fuel + 1) base cur acc pending = some (acc, cur)) ∧
    (∀ (lines : List String) (fuel : Nat) (cur : Nat)
        (acc : List (String × YVal × List String)) (pending : List String)
        (obj : List (String × YVal × List String)) (cur' : Nat),
      cur < lines.length →
      jsTrim (lines.getD cur "") ≠ "" →
      jsStartsWith (jsTrim (lines.getD cur "")) "#" = false →
      jsSearchNonWS (lines.getD cur "") > 0 →
      parseLevelGo lines (fuel + 1) 0 cur acc pending = some (obj, cur') →
      cur < cur') := by
  constructor
  · intro lines fuel base cur acc pending h0 h1 h2 hbase h3 h4
    simp only [parseLevelGo, if_pos h0, if_neg h1,
      if_neg (show ¬ jsStartsWith (jsTrim (lines.getD cur "")) "#" = true by
        rw [h2]; decide),
      if_neg (show ¬ jsSearchNonWS (lines.getD cur "") = -1 by omega),
      if_neg (show ¬ jsSearchNonWS (lines.getD cur "") < base by omega),
      if_pos (show jsSearchNonWS (lines.getD cur "") > base ∧ base ≠ 0
        from ⟨h3, h4⟩)]
  · intro lines fuel cur acc pending obj cur' h0 h1 h2 h3 h
    simp only [parseLevelGo, if_pos h0, if_neg h1,
      if_neg (show ¬ jsStartsWith (jsTrim (lines.getD cur "")) "#" = true by
        rw [h2]; decide),
      if_neg (show ¬ jsSearchNonWS (lines.getD cur "") = -1 by omega),
      if_neg (show ¬ jsSearchNonWS (lines.getD cur "") < (0 : Int) by omega),
      if_neg (show ¬ (jsSearchNonWS (lines.getD cur "") > (0 : Int)
        ∧ (0 : Int) ≠ 0) by simp)] at h
    split at h
    · split at h
      · split at h
        · split at h
          · exact absurd h (by simp)
          · rename_i child cur'' heq2
            have m1 := parseLevelGo_mono lines fuel _ _ _ _ _ _ heq2
            have m2 := parseLevelGo_mono lines fuel _ _ _ _ _ _ h
            omega
        · split at h
          · have := parseLevelGo_mono lines fuel _ _ _ _ _ _ h
            omega
          · have := parseLevelGo_mono lines fuel _ _ _ _ _ _ h
            omega
      · have := parseLevelGo_mono lines fuel _ _ _ _ _ _ h
        omega
    · split at h
      · have := parseLevelGo_mono lines fuel _ _ _ _ _ _ h
        omega
      · have := parseLevelGo_mono lines fuel _ _ _ _ _ _ h
        omega

/-- Witness for C8: for the single deeper-indented line `"  a: 1"`, a
nested level with `baseIndent = 1` stops without consuming it, while the
root level (`baseIndent = 0`) consumes it and advances the cursor. -/
theorem c8_deep_indent_guard_witness :
    parseLevelGo ["  a: 1"] 5 1 0 [] [] = some ([], 0) ∧
    (parseLevelGo ["  a: 1"] 5 0 0 [] []
        = some ([("a", YVal.scalar "1", [])], 1) ∧ 0 < 1) :=
  ⟨c8_deep_indent_guard.1 ["  a: 1"] 4 1 0 [] [] (by decide) (by decide)
      (by decide) (by decide) (by decide) (by decide),
   rfl,
   c8_deep_indent_guard.2 ["  a: 1"] 4 0 [] []
     [("a", YVal.scalar "1", [])] 1 (by decide) (by decide) (by decide)
     (by decide) rfl⟩

/-- C10: `YAMLParser.parse` terminates on every input: the result is
always produced (`some`) with fuel `2·lines + 1`, any fuel at least
`2·(remaining lines) + 1` suffices for `parseLevel`, and the cursor
never moves backwards (each loop iteration either exits or advances). -/
theorem c10_yaml_parse_terminates :
    (∀ text : String, (YAMLParser.parse text).isSome) ∧
    (∀ (lines : List String) (fuel : Nat) (base : Int) (cur : Nat)
        (acc : List (String × YVal × List String)) (pending : List String),
      2 * (lines.length - cur) + 1 ≤ fuel →
      (parseLevelGo lines fuel base cur acc pending).isSome) ∧
    (∀ (lines : List String) (fuel : Nat) (base : Int) (cur : Nat)
        (acc : List (String × YVal × List String)) (pending : List String)
        (obj : List (String × YVal × List String)) (cur' : Nat),
      parseLevelGo lines fuel base cur acc pending = some (obj, cur') →
      cur ≤ cur') := by
  refine ⟨?_, parseLevelGo_some, parseLevelGo_mono⟩
  intro text
  have h := parseLevelGo_some (jsSplitNewlines text)
    (2 * (jsSplitNewlines text).length + 1) 0 0 [] [] (by omega)
  simp only [YAMLParser.parse]
  obtain ⟨x, hx⟩ := Option.isSome_iff_exists.mp h
  rw [hx]
  rfl

/-- Witness for C10 at a concrete input: fuel `3` covers the one-line
document `"a: 1"`. -/
theorem c10_yaml_parse_terminates_witness :
    (parseLevelGo ["a: 1"] 3 0 0 [] []).isSome ∧ (0 : Nat) ≤ 1 :=
  ⟨c10_yaml_parse_terminates.2.1 ["a: 1"] 3 0 0 [] [] (by decide),
   c10_yaml_parse_terminates.2.2 ["a: 1"] 3 0 0 [] []
     [("a", YVal.scalar "1", [])] 1 rfl⟩

end ConfigDiffer
